import Mathlib

/-!
Verification of the Pure_NRNG entropy-conditioning pipeline.

Shallow embedding of the two source modules:
* rng_util_package/rng_util_module.py  (bit_length_mask, min_entropy, randomness_extractor)
* pure_nrng_package/pure_nrng_module.py  (class pure_nrng: __init__, true_rand_bits,
  true_rand_float, true_rand_int)

Modelling conventions:
* Python ints are ℤ (or ℕ where the source guarantees non-negativity);
  Python exceptions become an explicit error type.
* gmpy2 mpfr values are modelled as exact reals.  MPFR arithmetic is correctly
  rounded, and every property proved here about an mpfr value (being exactly 0,
  being exactly 1, being non-zero) is invariant under correct rounding at the
  precisions the source selects, as argued in comments at each use site.
  gmpy2 rejects a context precision below 2 with ValueError, which matters for
  min_entropy on a length-0 sample.
* SHAKE-256 (hashlib.shake_256) is an external cryptographic primitive; it is
  modelled as an abstract extendable-output function parameter
  `shake : List ℕ → ℕ → List ℕ` (input bytes, requested digest length).
* The external true-random source callables are modelled by an oracle
  `World.oracle : source id → per-source call index → bit_size → value`,
  together with a per-source call counter and a log of all calls made,
  so that "which source was called, how often, and with which bit_size"
  is observable in theorems.
-/

namespace PureNrng

/-- Python exceptions raised by the modelled code.  `valueError` stands for
ValueError (the spec calls it InvalidArgument), `runtimeError` for the
RuntimeError raised by `true_rand_bits` naming the offending entropy source
(the spec calls it EntropySourceExhausted), `unboundLocalError` for Python's
UnboundLocalError. -/
inductive Err where
  | valueError : Err
  | runtimeError : ℕ → Err
  | unboundLocalError : Err
deriving DecidableEq, Repr

/-- Population count of a natural number: gmpy2.popcount.  The base-2 digits of
`n` are each 0 or 1, so their sum is the number of set bits. -/
def popCount (n : ℕ) : ℕ := (Nat.digits 2 n).sum

/-- Python `int.bit_length`: number of bits needed to represent `n`;
`(0).bit_length() == 0`. -/
def bitLength (n : ℕ) : ℕ := (Nat.digits 2 n).length

/-- Python `int.to_bytes(len, byteorder = 'little')` for a non-negative value
that fits in `len` bytes: the `len` base-256 digits of `v`, least significant
first. -/
def toBytesLE : ℕ → ℕ → List ℕ
  | _, 0 => []
  | v, len + 1 => (v % 256) :: toBytesLE (v / 256) len

/-- Python `int.from_bytes(bytes, byteorder = 'little')`. -/
def fromBytesLE : List ℕ → ℕ
  | [] => 0
  | b :: bs => b + 256 * fromBytesLE bs

/-- rng_util.bit_length_mask (rng_util_module.py lines 20-49).
`x &= (1 << bit_length) - 1` on a non-negative Python int is `x mod
2 ^ bit_length`. -/
def bit_length_mask (x : ℤ) (bl : ℤ) : Except Err ℤ :=
  if x < 0 then .error .valueError
  else if bl ≤ 0 then .error .valueError
  else .ok (x % 2 ^ bl.toNat)

/-- The exact value of the min-entropy estimate
`-log2(max(number_of_0, number_of_1) / (number_of_0 + number_of_1))`
(rng_util_module.py line 81).  MPFR computes this correctly rounded at
precision `length + 1`; in every case used by a claim (value exactly 0,
exactly 1, or merely non-zero) the rounded value and the exact value agree:
the inputs and the ratio are exactly representable at that precision, and a
correctly rounded image of a non-zero real is non-zero while exact values 0
and 1 are returned exactly. -/
noncomputable def minEntropyVal (n0 n1 : ℤ) : ℝ :=
  -(Real.logb 2 ((max n0 n1 : ℤ) / ((n0 + n1 : ℤ) : ℝ)))

/-- rng_util.min_entropy (rng_util_module.py lines 52-81).  Negative counts
raise ValueError (lines 76-77).  The computation then enters
`gmpy2.local_context(gmpy2.context(), precision = length + 1)`; gmpy2 rejects
any precision below 2 with ValueError, so a zero-length sample
(`number_of_0 + number_of_1 == 0`, giving precision 1) also raises. -/
noncomputable def min_entropy (n0 n1 : ℤ) : Except Err ℝ :=
  if n0 < 0 then .error .valueError
  else if n1 < 0 then .error .valueError
  else if n0 + n1 + 1 < 2 then .error .valueError
  else .ok (minEntropyVal n0 n1)

/-- rng_util.randomness_extractor (rng_util_module.py lines 84-124),
parametric in the SHAKE-256 primitive `shake` (input bytes ↦ requested
length ↦ digest bytes).  `math.ceil(a / 8)` on the sizes involved is the
exact ceiling `(a + 7) / 8`. -/
def randomness_extractor (shake : List ℕ → ℕ → List ℕ)
    (raw_entropy_data : ℤ) (output_bit_size : ℤ) : Except Err ℤ :=
  if raw_entropy_data < 0 then .error .valueError
  else if output_bit_size ≤ 0 then .error .valueError
  else
    let raw_entropy_byte_length := (bitLength raw_entropy_data.toNat + 7) / 8
    let digest_byte_length := (output_bit_size.toNat + 7) / 8
    let hash_raw_entropy_bytes :=
      shake (toBytesLE raw_entropy_data.toNat raw_entropy_byte_length) digest_byte_length
    bit_length_mask (fromBytesLE hash_raw_entropy_bytes) output_bit_size

/-- Modelled from the spec (section 4.3 RandomnessExtractor), for comparison
with the source-translated `randomness_extractor`: serialize `raw` to the
minimal little-endian byte string of `ceil(bit_length(raw)/8)` bytes, squeeze
`ceil(output_bits/8)` bytes from SHAKE-256, read the digest as a little-endian
unsigned integer, and retain exactly the low `output_bits` bits. -/
def extract_spec (shake : List ℕ → ℕ → List ℕ)
    (raw : ℤ) (output_bits : ℤ) : Except Err ℤ :=
  if raw < 0 ∨ output_bits ≤ 0 then .error .valueError
  else
    let digest := shake (toBytesLE raw.toNat ((bitLength raw.toNat + 7) / 8))
      ((output_bits.toNat + 7) / 8)
    .ok ((fromBytesLE digest : ℤ) % 2 ^ output_bits.toNat)

/-! ## The pure_nrng class (pure_nrng_module.py) -/

/-- pure_nrng_module.py line 43: `initial_test_size = 1 << 13` bits. -/
def initial_test_size : ℕ := 2 ^ 13

/-- pure_nrng_module.py line 44: `count_queue_maxlen = 31`. -/
def count_queue_maxlen : ℕ := 31

/-- The per-source statistics entry stored in `self.raw_entropy_dict`
(pure_nrng_module.py line 97).  The two deques are lists with the oldest
sample at the head; `deque.append` adds at the tail, `deque.popleft` removes
the head.  Counts are ℤ because `number_of_0 = read_raw_length - popcount(raw)`
is a Python int that the code never clamps. -/
structure SourceStats where
  unbias : Bool
  count_queue_of_0 : List ℤ
  count_queue_of_1 : List ℤ
  sum_of_0 : ℤ
  sum_of_1 : ℤ
  min_entropy_value : ℝ

instance : Inhabited SourceStats := ⟨⟨true, [], [], 0, 0, 0⟩⟩

/-- The external world: the registered true-random source callables.
`oracle id k n` is the value the source with identity `id` returns on its
`k`-th invocation (counted from 0) when asked for `n` bits; `calls` counts
the invocations made so far per source, and `log` records every invocation
as a `(source id, bit_size)` pair, in order. -/
structure World where
  oracle : ℕ → ℕ → ℕ → ℕ
  calls : ℕ → ℕ
  log : List (ℕ × ℕ)

/-- Invoke the source callable `id` with argument `bits`:
`true_randbits(bits)` in the Python source. -/
def callSource (w : World) (id bits : ℕ) : ℕ × World :=
  (w.oracle id (w.calls id) bits,
   { w with
     calls := fun j => if j = id then w.calls id + 1 else w.calls j
     log := w.log ++ [(id, bits)] })

/-- `self.raw_entropy_dict`: a Python dict keyed by the identity of the source
callable (here: its ℕ id), in insertion order. -/
abbrev Dict := List (ℕ × SourceStats)

/-- Python `dict.update({k: v})`: if `k` is present its value is replaced in
place (the entry keeps its original position), otherwise the entry is
appended. -/
def dictUpdate : Dict → ℕ → SourceStats → Dict
  | [], k, v => [(k, v)]
  | (k0, v0) :: rest, k, v =>
    if k0 = k then (k, v) :: rest else (k0, v0) :: dictUpdate rest k v

/-- Lookup in `raw_entropy_dict` by source identity. -/
def dictFind : Dict → ℕ → Option SourceStats
  | [], _ => none
  | (k, v) :: rest, id => if k = id then some v else dictFind rest id

/-- The statistics entry the constructor builds for one source from its
warm-up sample `raw` of `initial_test_size` bits (pure_nrng_module.py lines
84-97): one-sample count queues, running sums equal to those counts, and the
min-entropy estimate of the warm-up sample. -/
noncomputable def warmStats (unbias : Bool) (raw : ℕ) : SourceStats :=
  let number_of_1 : ℤ := popCount raw
  let number_of_0 : ℤ := (initial_test_size : ℤ) - number_of_1
  { unbias := unbias
    count_queue_of_0 := [number_of_0]
    count_queue_of_1 := [number_of_1]
    sum_of_0 := number_of_0
    sum_of_1 := number_of_1
    min_entropy_value := minEntropyVal number_of_0 number_of_1 }

/-- The constructor loop over `true_randbits_args` (pure_nrng_module.py lines
78-97).  Arguments are already normalised: a bare callable means
`unbias = True` (line 82).  Each argument draws one warm-up sample of
`initial_test_size` bits from its source, computes its bit counts and
min-entropy, and stores the entry with `dict.update`.  A ValueError from
`min_entropy` propagates, abandoning the remaining arguments; the world and
the partially built dict at that point are returned alongside the error. -/
noncomputable def initGo : World → Dict → List (ℕ × Bool) → (Except Err Unit) × World × Dict
  | w, d, [] => (.ok (), w, d)
  | w, d, (id, unbias) :: rest =>
    let c := callSource w id initial_test_size
    let number_of_1 : ℤ := popCount c.1
    let number_of_0 : ℤ := (initial_test_size : ℤ) - number_of_1
    match min_entropy number_of_0 number_of_1 with
    | .error e => (.error e, c.2, d)
    | .ok m =>
      initGo c.2
        (dictUpdate d id
          { unbias := unbias
            count_queue_of_0 := [number_of_0]
            count_queue_of_1 := [number_of_1]
            sum_of_0 := number_of_0
            sum_of_1 := number_of_1
            min_entropy_value := m })
        rest

/-- `pure_nrng.__init__` (pure_nrng_module.py lines 46-97).  An empty argument
tuple defaults to the operating-system source `secrets.randbits` (line 71),
modelled as source id 0 in bare-callable form (hence `unbias = True`). -/
noncomputable def pure_nrng_init (w : World) (args : List (ℕ × Bool)) :
    (Except Err Unit) × World × Dict :=
  initGo w [] (if args = [] then [(0, true)] else args)

/-- Lines 134-142 of true_rand_bits: push one sample's zero/one counts into
the sliding windows.  For each queue, if it is at `maxlen` the oldest entry is
popped from the left and subtracted from the running sum before the new count
is added and appended. -/
def pushCounts (st : SourceStats) (number_of_0 number_of_1 : ℤ) : SourceStats :=
  let p0 :=
    if st.count_queue_of_0.length = count_queue_maxlen
    then (st.sum_of_0 - st.count_queue_of_0.headI, st.count_queue_of_0.tail)
    else (st.sum_of_0, st.count_queue_of_0)
  let p1 :=
    if st.count_queue_of_1.length = count_queue_maxlen
    then (st.sum_of_1 - st.count_queue_of_1.headI, st.count_queue_of_1.tail)
    else (st.sum_of_1, st.count_queue_of_1)
  { st with
    sum_of_0 := p0.1 + number_of_0
    count_queue_of_0 := p0.2 ++ [number_of_0]
    sum_of_1 := p1.1 + number_of_1
    count_queue_of_1 := p1.2 ++ [number_of_1] }

/-- One body iteration of the `for _ in range(3)` loop (lines 130-142), before
the estimate test: read `read_raw_length` bits from the source, count ones and
zeros, and push the counts into the windows.  Returns the raw sample, the
updated statistics and the updated world. -/
def attemptOnce (id : ℕ) (w : World) (st : SourceStats) (read_raw_length : ℕ) :
    ℕ × SourceStats × World :=
  let c := callSource w id read_raw_length
  let number_of_1 : ℤ := popCount c.1
  let number_of_0 : ℤ := (read_raw_length : ℤ) - number_of_1
  (c.1, pushCounts st number_of_0 number_of_1, c.2)

/-- `int(gmpy2.ceil(bit_size * 2 / min_entropy_value))` (line 126): the amount
of raw entropy read is twice the number of output bits divided by the current
estimate. -/
noncomputable def readLenFor (bit_size : ℕ) (mev : ℝ) : ℕ :=
  (Int.ceil ((bit_size * 2 : ℕ) / mev)).toNat

/-- The `for _ in range(3) ... else: raise` retry loop of true_rand_bits
(lines 129-151), with the remaining number of attempts as fuel (3 at entry).
Each attempt reads and pushes a sample; if the recomputed estimate is non-zero
it is stored and the raw sample accepted; otherwise the next attempt reads
`initial_test_size` bits.  When the fuel runs out the for-else clause raises
`RuntimeError` naming the source.  A ValueError from `min_entropy` also
aborts; in every outcome the mutated statistics and world are returned,
matching Python's in-place mutation of the dict entry. -/
noncomputable def attemptLoop (id : ℕ) :
    ℕ → World → SourceStats → ℕ → (Except Err ℕ) × SourceStats × World
  | 0, w, st, _ => (.error (.runtimeError id), st, w)
  | fuel + 1, w, st, read_raw_length =>
    let a := attemptOnce id w st read_raw_length
    match min_entropy a.2.1.sum_of_0 a.2.1.sum_of_1 with
    | .error e => (.error e, a.2.1, a.2.2)
    | .ok m =>
      if m ≠ 0 then (.ok a.1, { a.2.1 with min_entropy_value := m }, a.2.2)
      else attemptLoop id fuel a.2.2 a.2.1 initial_test_size

/-- Processing of one dict entry inside a draw (lines 122-154).  For an
`unbias` source: choose the first read length from the stored estimate
(lines 124-128), run the retry loop, then XOR in
`randomness_extractor(raw, bit_size)` (line 152).  Otherwise XOR in
`true_randbits(bit_size)` directly (line 154): no tracking, no extraction.
Returns the contribution to be XORed, the entry's statistics and the world. -/
noncomputable def processSource (shake : List ℕ → ℕ → List ℕ)
    (w : World) (id : ℕ) (st : SourceStats) (bit_size : ℕ) :
    (Except Err ℕ) × SourceStats × World :=
  if st.unbias then
    let read_raw_length :=
      if st.min_entropy_value ≠ 0
      then readLenFor bit_size st.min_entropy_value
      else initial_test_size
    match attemptLoop id 3 w st read_raw_length with
    | (.error e, st', w') => (.error e, st', w')
    | (.ok raw, st', w') =>
      match randomness_extractor shake (raw : ℤ) (bit_size : ℤ) with
      | .error e => (.error e, st', w')
      | .ok v => (.ok v.toNat, st', w')
  else
    let c := callSource w id bit_size
    (.ok c.1, st, c.2)

/-- The body of one `while True` iteration of true_rand_bits (lines 119-156):
fold over the dict entries in order, starting from `output_entropy_data = 0`,
XORing each source's contribution.  An exception stops the iteration; the
entries already processed keep their mutated statistics. -/
noncomputable def drawGo (shake : List ℕ → ℕ → List ℕ) (bit_size : ℕ) :
    World → Dict → ℕ → (Except Err ℕ) × Dict × World
  | w, [], acc => (.ok acc, [], w)
  | w, (id, st) :: rest, acc =>
    match processSource shake w id st bit_size with
    | (.error e, st', w') => (.error e, (id, st') :: rest, w')
    | (.ok v, st', w') =>
      let r := drawGo shake bit_size w' rest (acc ^^^ v)
      (r.1, (id, st') :: r.2.1, r.2.2)

/-- One value yielded by the `true_rand_bits(bit_size)` generator, from world
`w` and dict `d`. -/
noncomputable def drawOnce (shake : List ℕ → ℕ → List ℕ)
    (w : World) (d : Dict) (bit_size : ℕ) : (Except Err ℕ) × Dict × World :=
  drawGo shake bit_size w d 0

/-- The `k`-th value yielded by the `true_rand_bits(bit_size)` generator
(counting from 0), together with the dict and world after that yield.  Once a
draw raises, the generator is dead and the error persists. -/
noncomputable def drawsFrom (shake : List ℕ → ℕ → List ℕ) (bit_size : ℕ)
    (w : World) (d : Dict) : ℕ → (Except Err ℕ) × Dict × World
  | 0 => drawOnce shake w d bit_size
  | k + 1 =>
    let p := drawsFrom shake bit_size w d k
    match p.1 with
    | .error e => (.error e, p.2.1, p.2.2)
    | .ok _ => drawOnce shake p.2.2 p.2.1 bit_size

/-- The `bit_size` validation run when the generator body first executes
(lines 114-115): `bit_size <= 0` raises ValueError before any draw. -/
noncomputable def true_rand_bits_checked (shake : List ℕ → ℕ → List ℕ)
    (w : World) (d : Dict) (bit_size : ℤ) (k : ℕ) : (Except Err ℕ) × Dict × World :=
  if bit_size ≤ 0 then (.error .valueError, d, w)
  else drawsFrom shake bit_size.toNat w d k

/-! ## true_rand_float (pure_nrng_module.py lines 159-182) -/

/-- The first iteration of the `true_rand_float(precision)` generator body.
After the `precision < 2` check (line 175), line 177 executes
`true_rand_bits = self.true_rand_bits(bit_size)`.  `bit_size` is assigned only
at line 179, so inside this function body it is a local variable that is read
before any assignment: Python raises UnboundLocalError.  The local is modelled
as an `Option` that is still `none` when line 177 reads it; the unreachable
`some` branch carries the value lines 179-182 would then produce,
`mpfr(next(true_rand_bits)) / mpfr(1 << bit_size)` with
`bit_size = precision - 1`, for the first drawn value `first_draw`. -/
noncomputable def true_rand_float_first (precision : ℤ) (first_draw : ℕ) : Except Err ℝ :=
  if precision < 2 then .error .valueError
  else
    let bit_size : Option ℤ := none
    match bit_size with
    | none => .error .unboundLocalError
    | some _ => .ok ((first_draw : ℝ) / (2 : ℝ) ^ (precision - 1).toNat)

/-! ## true_rand_int (pure_nrng_module.py lines 185-215) -/

/-- Index of the next accepted draw: starting at stream position `start`,
the first index whose drawn value satisfies
`random_number <= difference_value` (the rejection test of line 214). -/
def firstAcceptIdx (difference_value : ℤ) (draws : ℕ → ℕ) (start : ℕ)
    (h : ∃ i, (draws (start + i) : ℤ) ≤ difference_value) : ℕ :=
  start + Nat.find h

/-- Stream position consumed by the `k`-th yield of `true_rand_int` in the
`a < b` case: each yield scans from just past the previously accepted index
for the next accepted draw. -/
def acceptPos (difference_value : ℤ) (draws : ℕ → ℕ)
    (h : ∀ s, ∃ i, (draws (s + i) : ℤ) ≤ difference_value) : ℕ → ℕ
  | 0 => firstAcceptIdx difference_value draws 0 (h 0)
  | k + 1 =>
    firstAcceptIdx difference_value draws
      (acceptPos difference_value draws h k + 1)
      (h (acceptPos difference_value draws h k + 1))

/-- Scan start of the `k`-th yield: position 0 for the first yield, one past
the previously accepted index afterwards. -/
def scanStart (difference_value : ℤ) (draws : ℕ → ℕ)
    (h : ∀ s, ∃ i, (draws (s + i) : ℤ) ≤ difference_value) : ℕ → ℕ
  | 0 => 0
  | k + 1 => acceptPos difference_value draws h k + 1

/-- The `k`-th value yielded by the `true_rand_int(b, a)` generator (lines
206-215), with `a ≤ b` already checked.  `draws` abstracts the successive
values yielded by `self.true_rand_bits(difference_value.bit_length())`
(line 211-212).  If `difference_value = b - a` is 0 the generator yields `a`
forever without consuming draws; otherwise it skips draws failing
`random_number <= difference_value` and yields `a + random_number` for the
first that passes.  The hypothesis supplies termination of the rejection
scan (a degenerate stream that always rejects would loop forever). -/
def true_rand_int_yield (b a : ℤ) (draws : ℕ → ℕ)
    (h : b - a = 0 ∨ ∀ s, ∃ i, (draws (s + i) : ℤ) ≤ b - a) (k : ℕ) : ℤ :=
  if hd : b - a = 0 then a
  else a + draws (acceptPos (b - a) draws (h.resolve_left hd) k)

/-- The conclusion of claim C3, describing one unbias source's processing
inside a draw of `true_rand_bits`.  `a1, a2, a3` are the three possible
sampling attempts (each reads the source once and pushes its counts),
`e1, e2, e3` the min-entropy estimates recomputed after each: the first
attempt reads `len1` bits — `ceil(bit_size*2/estimate)` when the stored
estimate is non-zero, `initial_test_size` otherwise — and every attempt
after a zero estimate reads `initial_test_size = 8192` bits.  A non-zero
estimate stops the retrying with a successful yield contribution (a zero
estimate in earlier attempts being invisible in the result); three zero
estimates make the draw fail with RuntimeError naming the source, after
exactly 3 source reads. -/
def RetryPolicySpec (shake : List ℕ → ℕ → List ℕ) (w : World) (id : ℕ)
    (st : SourceStats) (bs : ℕ) : Prop :=
  let len1 := if st.min_entropy_value ≠ 0 then readLenFor bs st.min_entropy_value
              else initial_test_size
  let a1 := attemptOnce id w st len1
  let e1 := minEntropyVal a1.2.1.sum_of_0 a1.2.1.sum_of_1
  let a2 := attemptOnce id a1.2.2 a1.2.1 initial_test_size
  let e2 := minEntropyVal a2.2.1.sum_of_0 a2.2.1.sum_of_1
  let a3 := attemptOnce id a2.2.2 a2.2.1 initial_test_size
  let e3 := minEntropyVal a3.2.1.sum_of_0 a3.2.1.sum_of_1
  let res := processSource shake w id st bs
  (e1 ≠ 0 → (∃ v, res.1 = .ok v) ∧ res.2.2.log = w.log ++ [(id, len1)]) ∧
  (e1 = 0 → e2 ≠ 0 → (∃ v, res.1 = .ok v) ∧
    res.2.2.log = w.log ++ [(id, len1), (id, initial_test_size)]) ∧
  (e1 = 0 → e2 = 0 → e3 ≠ 0 → (∃ v, res.1 = .ok v) ∧
    res.2.2.log =
      w.log ++ [(id, len1), (id, initial_test_size), (id, initial_test_size)]) ∧
  (e1 = 0 → e2 = 0 → e3 = 0 → res.1 = .error (.runtimeError id) ∧
    res.2.2.log =
      w.log ++ [(id, len1), (id, initial_test_size), (id, initial_test_size)])

/-- The conclusion of claim C7 about `true_rand_int`: every yielded value
lies in `[a, b]`; when `a = b` every yield is `a`; and when `a < b` the `k`-th
yield is `a + v` where `v` is the first draw at or after the scan start that
satisfies the rejection test `v ≤ b - a`, every earlier draw in the scan
having been rejected (`> b - a`). -/
def IntYieldSpec (b a : ℤ) (draws : ℕ → ℕ)
    (h : b - a = 0 ∨ ∀ s, ∃ i, (draws (s + i) : ℤ) ≤ b - a) (k : ℕ) : Prop :=
  (a ≤ true_rand_int_yield b a draws h k ∧ true_rand_int_yield b a draws h k ≤ b) ∧
  (a = b → true_rand_int_yield b a draws h k = a) ∧
  (a < b → ∀ hall : ∀ s, ∃ i, (draws (s + i) : ℤ) ≤ b - a,
    true_rand_int_yield b a draws h k = a + draws (acceptPos (b - a) draws hall k) ∧
    (draws (acceptPos (b - a) draws hall k) : ℤ) ≤ b - a ∧
    ∀ j, scanStart (b - a) draws hall k ≤ j → j < acceptPos (b - a) draws hall k →
      b - a < (draws j : ℤ))

/-! ## Concrete fixtures used by witnesses -/

/-- A stub bit-generator stream that always yields 1. -/
def constOneDraws : ℕ → ℕ := fun _ => 1

/-- A stub source family that always returns 0 (every bit zero). -/
def oracleZero : ℕ → ℕ → ℕ → ℕ := fun _ _ _ => 0

/-- A stub source family returning `100 * call index + bit_size`, so the
returned value identifies the invocation. -/
def oracleKN : ℕ → ℕ → ℕ → ℕ := fun _ k n => 100 * k + n

/-- A fresh world over the all-zero sources: no calls made yet. -/
def wZero : World := ⟨oracleZero, fun _ => 0, []⟩

/-- A fresh world over the invocation-identifying sources. -/
def wKN : World := ⟨oracleKN, fun _ => 0, []⟩

/-- A stub SHAKE-256 returning an all-zero digest of the requested length. -/
def shakeZero : List ℕ → ℕ → List ℕ := fun _ n => List.replicate n 0

/-- A tracker entry for a source registered with `unbias = False`. -/
def stRawFalse : SourceStats := ⟨false, [], [], 0, 0, 0⟩

/-- The tracker entry the constructor builds for an all-zero source: the
8192-bit warm-up sample has 8192 zeros, 0 ones, and a zero min-entropy
estimate. -/
noncomputable def stAllZero : SourceStats :=
  ⟨true, [(initial_test_size : ℤ)], [0], (initial_test_size : ℤ), 0,
   minEntropyVal (initial_test_size : ℤ) 0⟩

/-! ## Properties used as claim conclusions -/

/-- The per-source tracker invariant of the spec (section 3): the two count
windows have equal length at most `count_queue_maxlen = 31`, and each running
sum equals the sum of its window; consequently `sum_of_0 + sum_of_1` is the
total number of bits sampled in the current window and an evicted sample no
longer contributes. -/
def StatsInv (st : SourceStats) : Prop :=
  st.count_queue_of_0.length = st.count_queue_of_1.length ∧
  st.count_queue_of_0.length ≤ count_queue_maxlen ∧
  st.sum_of_0 = st.count_queue_of_0.sum ∧
  st.sum_of_1 = st.count_queue_of_1.sum

/-- Well-formedness of a tracker entry, established by construction and
maintained by draws when the source respects the `raw_bits` contract: the
structural invariant, non-negative window entries, and a non-negative stored
estimate. -/
def WFStats (st : SourceStats) : Prop :=
  StatsInv st ∧
  (∀ x ∈ st.count_queue_of_0, 0 ≤ x) ∧
  (∀ x ∈ st.count_queue_of_1, 0 ≤ x) ∧
  0 ≤ st.min_entropy_value

/-- The identities (dict keys) of the constructor arguments, in order. -/
def argIds (args : List (ℕ × Bool)) : List ℕ := args.map Prod.fst

/-- How many times the callable `id` occurs among the constructor
arguments. -/
def cntId (args : List (ℕ × Bool)) (id : ℕ) : ℕ := (argIds args).count id

/-- The unbias flag of the last occurrence of the callable `id` among the
constructor arguments (`true` as junk value when absent). -/
def lastUnbias (args : List (ℕ × Bool)) (id : ℕ) : Bool :=
  ((args.filter fun p => p.1 == id).getLast?).elim true Prod.snd

/-- The conclusion of claim C9 (amended to pairwise-distinct callables):
construction succeeds, the call log grows by exactly the list of warm-up
calls — one `(id, initial_test_size)` entry per argument, in order — and for
every argument `(id, u)` (any unbias flag) the warm-up region of the log
holds exactly one call by that source, and the dict stores for it the
statistics entry built from its single warm-up sample: one-sample count
windows, running sums equal to those counts, and the min-entropy estimate of
the sample. -/
def InitWarmupSpec (w : World) (args : List (ℕ × Bool)) : Prop :=
  (pure_nrng_init w args).1 = .ok () ∧
  (pure_nrng_init w args).2.1.log =
    w.log ++ (args.map fun q => (q.1, initial_test_size)) ∧
  ∀ p ∈ args,
    ((args.map fun q => (q.1, initial_test_size)).countP fun e => e.1 == p.1) = 1 ∧
    dictFind (pure_nrng_init w args).2.2 p.1 =
      some (warmStats p.2 (w.oracle p.1 (w.calls p.1) initial_test_size))

/-- The conclusion of claim C10: construction succeeds; the dict holds
exactly one entry for the callable `id`; that entry carries the unbias flag
of the last occurrence of `id` among the arguments and the statistics of the
last warm-up sample drawn from it; when every argument is the callable `id`
the dict is exactly a singleton; and a draw over a singleton dict processes
its source exactly once, the yield being that single contribution. -/
def DictIdentitySpec (shake : List ℕ → ℕ → List ℕ) (w : World)
    (args : List (ℕ × Bool)) (id : ℕ) : Prop :=
  (pure_nrng_init w args).1 = .ok () ∧
  ((pure_nrng_init w args).2.2.map Prod.fst).count id = 1 ∧
  dictFind (pure_nrng_init w args).2.2 id =
    some (warmStats (lastUnbias args id)
      (w.oracle id (w.calls id + cntId args id - 1) initial_test_size)) ∧
  ((∀ p ∈ args, p.1 = id) → ∃ st, (pure_nrng_init w args).2.2 = [(id, st)]) ∧
  ∀ (st : SourceStats) (w2 : World) (bs : ℕ),
    drawOnce shake w2 [(id, st)] bs =
      ((processSource shake w2 id st bs).1,
       [(id, (processSource shake w2 id st bs).2.1)],
       (processSource shake w2 id st bs).2.2)

/-! ## Helper lemmas about the min-entropy estimate -/

theorem min_entropy_ok (n0 n1 : ℤ) (h0 : 0 ≤ n0) (h1 : 0 ≤ n1) (hs : 0 < n0 + n1) :
    min_entropy n0 n1 = .ok (minEntropyVal n0 n1) := by
  unfold min_entropy
  rw [if_neg (by omega), if_neg (by omega), if_neg (by omega)]

theorem minEntropyVal_right_zero (n : ℤ) (hn : 0 ≤ n) : minEntropyVal n 0 = 0 := by
  unfold minEntropyVal
  rw [max_eq_left hn, add_zero]
  rcases hn.eq_or_lt with h | h
  · rw [← h]
    norm_num
  · have hn' : (n : ℝ) ≠ 0 := Int.cast_ne_zero.mpr h.ne'
    rw [div_self hn', Real.logb_one, neg_zero]

theorem minEntropyVal_diag (n : ℤ) (hn : 0 < n) : minEntropyVal n n = 1 := by
  unfold minEntropyVal
  rw [max_self]
  have hn' : (n : ℝ) ≠ 0 := Int.cast_ne_zero.mpr hn.ne'
  have hq : ((n : ℤ) : ℝ) / (((n + n : ℤ)) : ℝ) = 2⁻¹ := by
    push_cast
    rw [show (n : ℝ) + n = (n : ℝ) * 2 by ring, div_mul_eq_div_div, div_self hn', one_div]
  rw [hq, Real.logb_inv, Real.logb_self_eq_one (by norm_num), neg_neg]

theorem minEntropyVal_nonneg (n0 n1 : ℤ) (h0 : 0 ≤ n0) (h1 : 0 ≤ n1)
    (hs : 0 < n0 + n1) : 0 ≤ minEntropyVal n0 n1 := by
  unfold minEntropyVal
  have hm0 : (0 : ℤ) < max n0 n1 := by
    rcases lt_or_le 0 n0 with h | h
    · exact lt_of_lt_of_le h (le_max_left _ _)
    · exact lt_of_lt_of_le (by omega) (le_max_right _ _)
  have hms : max n0 n1 ≤ n0 + n1 := max_le (by omega) (by omega)
  have hsR : (0 : ℝ) < ((n0 + n1 : ℤ) : ℝ) := by exact_mod_cast hs
  have hr1 : ((max n0 n1 : ℤ) : ℝ) / ((n0 + n1 : ℤ) : ℝ) ≤ 1 := by
    rw [div_le_one hsR]
    exact_mod_cast hms
  have hr0 : (0 : ℝ) ≤ ((max n0 n1 : ℤ) : ℝ) / ((n0 + n1 : ℤ) : ℝ) :=
    div_nonneg (by exact_mod_cast hm0.le) hsR.le
  have hlb := Real.logb_nonpos (b := 2) (by norm_num) hr0 hr1
  linarith

/-! ## Claim C2 -/

/-- C2: `min_entropy` raises ValueError (the spec's InvalidArgument) whenever
its precondition `zero_count ≥ 0 ∧ one_count ≥ 0 ∧ zero_count + one_count > 0`
is violated; in particular `min_entropy(0, 0)` fails rather than returning a
value.  Negative counts hit the explicit checks of lines 76-77; a zero-length
sample makes the code request gmpy2 context precision `0 + 1 = 1`, which gmpy2
rejects with ValueError. -/
theorem min_entropy_rejects_invalid_arguments (n0 n1 : ℤ)
    (h : n0 < 0 ∨ n1 < 0 ∨ n0 + n1 ≤ 0) :
    min_entropy n0 n1 = .error .valueError := by
  unfold min_entropy
  rcases h with h | h | h
  · rw [if_pos h]
  · by_cases h0 : n0 < 0
    · rw [if_pos h0]
    · rw [if_neg h0, if_pos h]
  · by_cases h0 : n0 < 0
    · rw [if_pos h0]
    · by_cases h1 : n1 < 0
      · rw [if_neg h0, if_pos h1]
      · rw [if_neg h0, if_neg h1, if_pos (by omega)]

theorem min_entropy_rejects_invalid_arguments_witness :
    ((0 : ℤ) < 0 ∨ (0 : ℤ) < 0 ∨ (0 : ℤ) + 0 ≤ 0) ∧
      min_entropy 0 0 = .error .valueError :=
  ⟨by norm_num, min_entropy_rejects_invalid_arguments 0 0 (by norm_num)⟩

/-! ## Claim C6 -/

/-- C6: for every `n > 0`, `min_entropy(n, n)` returns exactly 1 and
`min_entropy(n, 0)` returns exactly 0.  (In the balanced case the ratio 1/2
and the result -log2(1/2) = 1 are exactly representable at the precision
`2n + 1` the code selects, so the MPFR value is exact; in the fully biased
case MPFR computes -log2(1) = -0, and mpfr negative zero is numerically
equal to 0.) -/
theorem min_entropy_exact_endpoints (n : ℤ) (hn : 0 < n) :
    min_entropy n n = .ok 1 ∧ min_entropy n 0 = .ok 0 := by
  constructor
  · rw [min_entropy_ok n n hn.le hn.le (by omega), minEntropyVal_diag n hn]
  · rw [min_entropy_ok n 0 hn.le le_rfl (by omega), minEntropyVal_right_zero n hn.le]

theorem min_entropy_exact_endpoints_witness :
    (0 : ℤ) < 3 ∧ (min_entropy 3 3 = .ok 1 ∧ min_entropy 3 0 = .ok 0) :=
  ⟨by norm_num, min_entropy_exact_endpoints 3 (by norm_num)⟩

/-! ## Claim C4 -/

/-- C4: for every `raw ≥ 0` and `output_bits > 0`, the extractor succeeds
with a value `< 2^output_bits`, is deterministic, and equals the pipeline the
spec describes (minimal little-endian serialization of `ceil(bit_length/8)`
bytes, a `ceil(output_bits/8)`-byte SHAKE-256 digest read little-endian,
masked to the low `output_bits` bits), for any behaviour of the SHAKE-256
primitive `shake`. -/
theorem randomness_extractor_bounded_deterministic
    (shake : List ℕ → ℕ → List ℕ) (raw k : ℤ) (hraw : 0 ≤ raw) (hk : 0 < k) :
    ∃ v, randomness_extractor shake raw k = .ok v ∧
      0 ≤ v ∧ v < 2 ^ k.toNat ∧
      randomness_extractor shake raw k = extract_spec shake raw k ∧
      ∀ raw2 k2, raw2 = raw → k2 = k →
        randomness_extractor shake raw2 k2 = randomness_extractor shake raw k := by
  have hpow : (0 : ℤ) < 2 ^ k.toNat := by positivity
  have hmain : randomness_extractor shake raw k =
      .ok ((fromBytesLE (shake (toBytesLE raw.toNat ((bitLength raw.toNat + 7) / 8))
        ((k.toNat + 7) / 8)) : ℤ) % 2 ^ k.toNat) := by
    simp [randomness_extractor, bit_length_mask, hraw.not_lt, hk.not_le,
      (Int.natCast_nonneg _).not_lt]
  refine ⟨_, hmain, Int.emod_nonneg _ hpow.ne', Int.emod_lt_of_pos _ hpow, ?_, ?_⟩
  · rw [hmain]
    simp [extract_spec, hraw.not_lt, hk.not_le]
  · intro raw2 k2 h2 h3
    rw [h2, h3]

theorem randomness_extractor_bounded_deterministic_witness :
    (0 : ℤ) ≤ 5 ∧ (0 : ℤ) < 3 ∧
      ∃ v, randomness_extractor (fun _ n => List.replicate n 201) 5 3 = .ok v ∧
        0 ≤ v ∧ v < 2 ^ (3 : ℤ).toNat ∧
        randomness_extractor (fun _ n => List.replicate n 201) 5 3 =
          extract_spec (fun _ n => List.replicate n 201) 5 3 ∧
        ∀ raw2 k2, raw2 = 5 → k2 = 3 →
          randomness_extractor (fun _ n => List.replicate n 201) 5 3 =
            randomness_extractor (fun _ n => List.replicate n 201) 5 3 := by
  refine ⟨by norm_num, by norm_num, ?_⟩
  obtain ⟨v, h1, h2, h3, h4, _⟩ :=
    randomness_extractor_bounded_deterministic
      (fun _ n => List.replicate n 201) 5 3 (by norm_num) (by norm_num)
  exact ⟨v, h1, h2, h3, h4, fun _ _ _ _ => rfl⟩

/-! ## Claim C1 -/

/-- C1 (code bug evidence): for every precision within the documented domain
(`precision ≥ 2`) the `true_rand_float` generator body raises
UnboundLocalError at line 177 on its first iteration, because the local
`bit_size` is read there but only assigned at line 179.  No value is ever
yielded, contradicting the documented behaviour of yielding
`bits / 2^(precision-1)` in [0, 1). -/
theorem true_rand_float_crashes_unbound_local (precision : ℤ)
    (hp : 2 ≤ precision) (first_draw : ℕ) :
    true_rand_float_first precision first_draw = .error .unboundLocalError := by
  unfold true_rand_float_first
  rw [if_neg (not_lt.mpr hp)]

theorem true_rand_float_crashes_unbound_local_witness :
    (2 : ℤ) ≤ 53 ∧ true_rand_float_first 53 0 = .error .unboundLocalError :=
  ⟨by norm_num, true_rand_float_crashes_unbound_local 53 (by norm_num) 0⟩

/-! ## Helper lemmas for the tracker invariant (claim C5) -/

theorem statsInv_pushCounts (st : SourceStats) (n0 n1 : ℤ) (h : StatsInv st) :
    StatsInv (pushCounts st n0 n1) := by
  obtain ⟨hlen, hle, hs0, hs1⟩ := h
  by_cases hfull : st.count_queue_of_0.length = count_queue_maxlen
  · have hfull1 : st.count_queue_of_1.length = count_queue_maxlen := hlen ▸ hfull
    have hne0 : st.count_queue_of_0 ≠ [] := by
      intro he
      rw [he] at hfull
      simp [count_queue_maxlen] at hfull
    have hne1 : st.count_queue_of_1 ≠ [] := by
      intro he
      rw [he] at hfull1
      simp [count_queue_maxlen] at hfull1
    obtain ⟨x0, t0, he0⟩ := List.exists_cons_of_ne_nil hne0
    obtain ⟨x1, t1, he1⟩ := List.exists_cons_of_ne_nil hne1
    have hl0 : t0.length + 1 = count_queue_maxlen := by
      rw [he0] at hfull
      simpa using hfull
    have hl1 : t1.length + 1 = count_queue_maxlen := by
      rw [he1] at hfull1
      simpa using hfull1
    have hp : pushCounts st n0 n1 =
        { st with
          sum_of_0 := st.sum_of_0 - x0 + n0
          count_queue_of_0 := t0 ++ [n0]
          sum_of_1 := st.sum_of_1 - x1 + n1
          count_queue_of_1 := t1 ++ [n1] } := by
      simp [pushCounts, he0, he1, hl0, hl1]
    rw [hp]
    refine ⟨?_, ?_, ?_, ?_⟩
    · simp only [List.length_append, List.length_singleton]
      omega
    · simp only [List.length_append, List.length_singleton]
      omega
    · rw [hs0, he0]
      simp only [List.sum_cons, List.sum_append, List.sum_nil, add_zero]
      ring
    · rw [hs1, he1]
      simp only [List.sum_cons, List.sum_append, List.sum_nil, add_zero]
      ring
  · have hfull1 : ¬ st.count_queue_of_1.length = count_queue_maxlen := hlen ▸ hfull
    have hp : pushCounts st n0 n1 =
        { st with
          sum_of_0 := st.sum_of_0 + n0
          count_queue_of_0 := st.count_queue_of_0 ++ [n0]
          sum_of_1 := st.sum_of_1 + n1
          count_queue_of_1 := st.count_queue_of_1 ++ [n1] } := by
      simp [pushCounts, hfull, hfull1]
    rw [hp]
    refine ⟨?_, ?_, ?_, ?_⟩
    · simp [hlen]
    · simp only [List.length_append, List.length_singleton]
      simp only [count_queue_maxlen] at hfull hle ⊢
      omega
    · rw [hs0]
      simp
    · rw [hs1]
      simp

theorem statsInv_setMev (st : SourceStats) (m : ℝ) (h : StatsInv st) :
    StatsInv { st with min_entropy_value := m } := h

theorem statsInv_attemptLoop (id : ℕ) (fuel : ℕ) :
    ∀ (w : World) (st : SourceStats) (len : ℕ), StatsInv st →
      StatsInv (attemptLoop id fuel w st len).2.1 := by
  induction fuel with
  | zero => intro w st len h; exact h
  | succ n ih =>
    intro w st len h
    have hpush : StatsInv (attemptOnce id w st len).2.1 :=
      statsInv_pushCounts _ _ _ h
    simp only [attemptLoop]
    cases hm : min_entropy (attemptOnce id w st len).2.1.sum_of_0
        (attemptOnce id w st len).2.1.sum_of_1 with
    | error e => simpa using hpush
    | ok m =>
      by_cases hz : m = 0
      · simp only [hz, ne_eq, not_true_eq_false, if_false]
        exact ih _ _ _ hpush
      · simp only [ne_eq, hz, not_false_eq_true, if_true]
        exact statsInv_setMev _ _ hpush

theorem statsInv_processSource (shake : List ℕ → ℕ → List ℕ) (w : World)
    (id : ℕ) (st : SourceStats) (bs : ℕ) (h : StatsInv st) :
    StatsInv (processSource shake w id st bs).2.1 := by
  unfold processSource
  by_cases hu : st.unbias
  · simp only [hu, if_true]
    have hA := statsInv_attemptLoop id 3 w st
      (if st.min_entropy_value ≠ 0 then readLenFor bs st.min_entropy_value
       else initial_test_size) h
    rcases hL : attemptLoop id 3 w st
        (if st.min_entropy_value ≠ 0 then readLenFor bs st.min_entropy_value
         else initial_test_size) with ⟨r, st', w'⟩
    rw [hL] at hA
    cases r with
    | error e => simpa using hA
    | ok raw =>
      cases hx : randomness_extractor shake (raw : ℤ) (bs : ℤ) with
      | error e => simpa [hx] using hA
      | ok v => simpa [hx] using hA
  · simp only [hu, if_false]
    exact h

theorem statsInv_drawGo (shake : List ℕ → ℕ → List ℕ) (bs : ℕ) :
    ∀ (d : Dict) (w : World) (acc : ℕ), (∀ e ∈ d, StatsInv e.2) →
      ∀ e' ∈ (drawGo shake bs w d acc).2.1, StatsInv e'.2 := by
  intro d
  induction d with
  | nil => intro w acc _ e' he'; simp [drawGo] at he'
  | cons hd rest ih =>
    intro w acc hall e' he'
    obtain ⟨id, st⟩ := hd
    have hst : StatsInv st := hall (id, st) (by simp)
    have hrest : ∀ e ∈ rest, StatsInv e.2 := fun e he => hall e (by simp [he])
    have hP := statsInv_processSource shake w id st bs hst
    simp only [drawGo] at he'
    rcases hp : processSource shake w id st bs with ⟨r, st', w'⟩
    rw [hp] at hP he'
    cases r with
    | error e =>
      simp at he'
      rcases he' with he' | he'
      · rw [he']; exact hP
      · exact hrest _ he'
    | ok v =>
      simp at he'
      rcases he' with he' | he'
      · rw [he']; exact hP
      · exact ih w' (acc ^^^ v) hrest e' he'

theorem dictUpdate_mem : ∀ (d : Dict) (k : ℕ) (v : SourceStats) (e : ℕ × SourceStats),
    e ∈ dictUpdate d k v → e ∈ d ∨ e = (k, v) := by
  intro d
  induction d with
  | nil => intro k v e he; simp [dictUpdate] at he; simp [he]
  | cons hd rest ih =>
    intro k v e he
    obtain ⟨k0, v0⟩ := hd
    simp only [dictUpdate] at he
    by_cases hk : k0 = k
    · rw [if_pos hk] at he
      simp at he
      rcases he with he | he
      · right; simp [he]
      · left; simp [he]
    · rw [if_neg hk] at he
      simp at he
      rcases he with he | he
      · left; simp [he]
      · rcases ih k v e he with h | h
        · left; simp [h]
        · right; exact h

theorem statsInv_initGo : ∀ (args : List (ℕ × Bool)) (w : World) (d : Dict),
    (∀ e ∈ d, StatsInv e.2) → ∀ e' ∈ (initGo w d args).2.2, StatsInv e'.2 := by
  intro args
  induction args with
  | nil => intro w d hall e' he'; simpa [initGo] using hall e' he'
  | cons hd rest ih =>
    intro w d hall e' he'
    obtain ⟨id, unbias⟩ := hd
    simp only [initGo] at he'
    cases hm : min_entropy ((initial_test_size : ℤ) - (popCount (callSource w id initial_test_size).1 : ℤ))
        ((popCount (callSource w id initial_test_size).1 : ℤ)) with
    | error e => rw [hm] at he'; simp at he'; exact hall e' he'
    | ok m =>
      rw [hm] at he'
      simp only at he'
      refine ih _ _ ?_ e' he'
      intro e he
      rcases dictUpdate_mem _ _ _ _ he with h | h
      · exact hall e h
      · rw [h]
        exact ⟨by simp, by simp [count_queue_maxlen], by simp, by simp⟩

/-! ## Claim C5 -/

/-- C5: the per-source tracker invariant holds for every entry the
constructor builds and is preserved by every draw of `true_rand_bits`
(including draws that end in an exception, whose partially mutated entries
are also returned): the zero-count and one-count windows always have equal
length at most 31, and each running sum equals the sum of its window — hence
`sum_of_0 + sum_of_1` is the total number of bits sampled in the current
window, and a sample evicted from the full window no longer contributes. -/
theorem tracker_invariant_preserved (shake : List ℕ → ℕ → List ℕ) :
    (∀ (w : World) (args : List (ℕ × Bool)),
      ∀ e ∈ (pure_nrng_init w args).2.2, StatsInv e.2) ∧
    (∀ (w : World) (d : Dict) (bs : ℕ), (∀ e ∈ d, StatsInv e.2) →
      ∀ e' ∈ (drawOnce shake w d bs).2.1, StatsInv e'.2) := by
  constructor
  · intro w args e he
    exact statsInv_initGo _ w [] (by simp) e he
  · intro w d bs hall e' he'
    exact statsInv_drawGo shake bs d w 0 hall e' he'

theorem tracker_invariant_preserved_witness :
    StatsInv ((pure_nrng_init wZero [(0, true)]).2.2.headI).2 := by
  have hev : (pure_nrng_init wZero [(0, true)]).2.2 =
      [(0, ⟨true, [8192], [0], 8192, 0, minEntropyVal 8192 0⟩)] := by
    norm_num [pure_nrng_init, initGo, callSource, wZero, oracleZero, popCount,
      initial_test_size, dictUpdate,
      min_entropy_ok 8192 0 (by norm_num) (by norm_num) (by norm_num)]
  exact (tracker_invariant_preserved shakeZero).1 wZero [(0, true)]
    ((pure_nrng_init wZero [(0, true)]).2.2.headI) (by rw [hev]; simp)

/-! ## Helper lemmas for a single raw (unbias = False) source (claim C8) -/

theorem drawOnce_single_raw (shake : List ℕ → ℕ → List ℕ) (w : World)
    (id : ℕ) (st : SourceStats) (hu : st.unbias = false) (n : ℕ) :
    drawOnce shake w [(id, st)] n =
      (.ok (w.oracle id (w.calls id) n), [(id, st)],
       { w with
         calls := fun j => if j = id then w.calls id + 1 else w.calls j
         log := w.log ++ [(id, n)] }) := by
  simp [drawOnce, drawGo, processSource, hu, callSource]

theorem drawsFrom_single_raw (shake : List ℕ → ℕ → List ℕ) (n : ℕ)
    (id : ℕ) (st : SourceStats) (hu : st.unbias = false) :
    ∀ (k : ℕ) (w : World),
      (drawsFrom shake n w [(id, st)] k).1 = .ok (w.oracle id (w.calls id + k) n) ∧
      (drawsFrom shake n w [(id, st)] k).2.1 = [(id, st)] ∧
      (drawsFrom shake n w [(id, st)] k).2.2.oracle = w.oracle ∧
      (drawsFrom shake n w [(id, st)] k).2.2.calls id = w.calls id + k + 1 ∧
      (drawsFrom shake n w [(id, st)] k).2.2.log = w.log ++ List.replicate (k + 1) (id, n) := by
  intro k
  induction k with
  | zero =>
    intro w
    simp [drawsFrom, drawOnce_single_raw shake w id st hu n]
  | succ k ih =>
    intro w
    obtain ⟨h1, h2, h3, h4, h5⟩ := ih w
    have hstep : drawsFrom shake n w [(id, st)] (k + 1) =
        drawOnce shake (drawsFrom shake n w [(id, st)] k).2.2
          (drawsFrom shake n w [(id, st)] k).2.1 n := by
      simp only [drawsFrom]
      rw [h1]
    rw [hstep, h2, drawOnce_single_raw shake _ id st hu n]
    refine ⟨?_, rfl, ?_, ?_, ?_⟩
    · simp [h3, h4, Nat.add_assoc]
    · simp [h3]
    · simp [h4, Nat.add_assoc]
    · simp only [h5, List.append_assoc]
      rw [← List.replicate_succ' (k + 1) (id, n)]

/-! ## Claim C8 -/

/-- C8: when the dict holds exactly one registered source and it is
configured with `unbias = False`, every value yielded by
`true_rand_bits(n)` is exactly the value that source's callable returns when
invoked with `n`: the `k`-th yield is the source's `(k+1)`-st post-warm-up
invocation (call log grows by one `(id, n)` entry per yield) and the tracker
entry is never touched — no extraction, masking or statistics update. -/
theorem true_rand_bits_single_unbiased_identity (shake : List ℕ → ℕ → List ℕ)
    (w : World) (id : ℕ) (st : SourceStats) (hu : st.unbias = false)
    (n : ℕ) (hn : 0 < n) (k : ℕ) :
    (drawsFrom shake n w [(id, st)] k).1 = .ok (w.oracle id (w.calls id + k) n) ∧
    (drawsFrom shake n w [(id, st)] k).2.1 = [(id, st)] ∧
    (drawsFrom shake n w [(id, st)] k).2.2.log = w.log ++ List.replicate (k + 1) (id, n) := by
  obtain ⟨h1, h2, _, _, h5⟩ := drawsFrom_single_raw shake n id st hu k w
  exact ⟨h1, h2, h5⟩

theorem true_rand_bits_single_unbiased_identity_witness :
    (0 : ℕ) < 5 ∧
    ((drawsFrom shakeZero 5 wKN [(3, stRawFalse)] 2).1 =
        .ok (wKN.oracle 3 (wKN.calls 3 + 2) 5) ∧
      (drawsFrom shakeZero 5 wKN [(3, stRawFalse)] 2).2.1 = [(3, stRawFalse)] ∧
      (drawsFrom shakeZero 5 wKN [(3, stRawFalse)] 2).2.2.log =
        wKN.log ++ List.replicate 3 (3, 5)) :=
  ⟨by norm_num,
   true_rand_bits_single_unbiased_identity shakeZero wKN 3 stRawFalse rfl 5 (by norm_num) 2⟩

/-! ## Helper lemmas for true_rand_int (claim C7) -/

theorem acceptPos_eq (dv : ℤ) (draws : ℕ → ℕ)
    (hall : ∀ s, ∃ i, (draws (s + i) : ℤ) ≤ dv) (k : ℕ) :
    acceptPos dv draws hall k =
      firstAcceptIdx dv draws (scanStart dv draws hall k)
        (hall (scanStart dv draws hall k)) := by
  cases k <;> rfl

theorem firstAcceptIdx_accepts (dv : ℤ) (draws : ℕ → ℕ) (s : ℕ)
    (hs : ∃ i, (draws (s + i) : ℤ) ≤ dv) :
    (draws (firstAcceptIdx dv draws s hs) : ℤ) ≤ dv :=
  Nat.find_spec hs

theorem firstAcceptIdx_min (dv : ℤ) (draws : ℕ → ℕ) (s : ℕ)
    (hs : ∃ i, (draws (s + i) : ℤ) ≤ dv) (j : ℕ) (hj1 : s ≤ j)
    (hj2 : j < firstAcceptIdx dv draws s hs) : dv < (draws j : ℤ) := by
  unfold firstAcceptIdx at hj2
  obtain ⟨i, rfl⟩ : ∃ i, j = s + i := ⟨j - s, by omega⟩
  have hi : i < Nat.find hs := by omega
  exact not_le.mp (Nat.find_min hs hi)

theorem constOneDraws_acc : ∀ s, ∃ i, ((constOneDraws (s + i) : ℕ) : ℤ) ≤ 2 - 0 :=
  fun _ => ⟨0, by norm_num [constOneDraws]⟩

/-! ## Claim C7 -/

/-- C7: for every `a ≤ b` and every stream of bit-generator outputs `draws`
(abstracting successive values of `true_rand_bits(bit_length(b-a))`), every
value yielded by `true_rand_int(b, a)` lies in `[a, b]`; when `a = b` every
yield is exactly `a`; and when `a < b` the `k`-th yield is `a + v` where `v`
is the first draw from the scan start satisfying `v ≤ b - a`, all earlier
draws of that scan having been rejected because they exceed `b - a`. -/
theorem true_rand_int_range_and_rejection (b a : ℤ) (hab : a ≤ b)
    (draws : ℕ → ℕ)
    (h : b - a = 0 ∨ ∀ s, ∃ i, (draws (s + i) : ℤ) ≤ b - a) (k : ℕ) :
    IntYieldSpec b a draws h k := by
  by_cases hd : b - a = 0
  · have hyield : true_rand_int_yield b a draws h k = a := by
      simp [true_rand_int_yield, hd]
    exact ⟨⟨le_of_eq hyield.symm, by omega⟩, fun _ => hyield,
      fun hlt => absurd hd (by omega)⟩
  · have hall : ∀ s, ∃ i, (draws (s + i) : ℤ) ≤ b - a := h.resolve_left hd
    have hyield : true_rand_int_yield b a draws h k =
        a + draws (acceptPos (b - a) draws hall k) := by
      simp [true_rand_int_yield, hd]
    have hacc : (draws (acceptPos (b - a) draws hall k) : ℤ) ≤ b - a := by
      rw [acceptPos_eq]
      exact firstAcceptIdx_accepts _ _ _ _
    have hnn : (0 : ℤ) ≤ (draws (acceptPos (b - a) draws hall k) : ℤ) :=
      Int.natCast_nonneg _
    refine ⟨⟨by omega, by omega⟩, fun he => absurd (by omega : b - a = 0) hd,
      fun hlt hall2 => ⟨hyield, hacc, ?_⟩⟩
    intro j hj1 hj2
    rw [acceptPos_eq] at hj2
    exact firstAcceptIdx_min _ _ _ _ j hj1 hj2

theorem true_rand_int_range_and_rejection_witness :
    (0 : ℤ) ≤ 2 ∧ IntYieldSpec 2 0 constOneDraws (Or.inr constOneDraws_acc) 5 :=
  ⟨by norm_num,
   true_rand_int_range_and_rejection 2 0 (by norm_num) constOneDraws
     (Or.inr constOneDraws_acc) 5⟩

/-! ## Helper lemmas for the constructor (claims C9, C10) -/

theorem digits_len_le_of_lt_two_pow {n L : ℕ} (h : n < 2 ^ L) :
    (Nat.digits 2 n).length ≤ L := by
  by_contra hc
  push_neg at hc
  rcases Nat.eq_zero_or_pos n with rfl | hn
  · simp at hc
  · have h1 := Nat.base_pow_length_digits_le 2 n (by norm_num) hn.ne'
    have h2 : 2 ^ (L + 1) ≤ 2 ^ (Nat.digits 2 n).length :=
      Nat.pow_le_pow_right (by norm_num) hc
    have h3 := le_trans h2 h1
    rw [pow_succ] at h3
    omega

theorem popCount_le_of_lt_two_pow {n L : ℕ} (h : n < 2 ^ L) : popCount n ≤ L := by
  have h1 : popCount n ≤ (Nat.digits 2 n).length := by
    unfold popCount
    have h2 := List.sum_le_card_nsmul (Nat.digits 2 n) 1
      (fun x hx => by have := Nat.digits_lt_base (by norm_num) hx; omega)
    simpa using h2
  exact le_trans h1 (digits_len_le_of_lt_two_pow h)

theorem dictFind_update_self : ∀ (d : Dict) (k : ℕ) (v : SourceStats),
    dictFind (dictUpdate d k v) k = some v := by
  intro d k v
  induction d with
  | nil => simp [dictUpdate, dictFind]
  | cons hd rest ih =>
    obtain ⟨k0, v0⟩ := hd
    by_cases hk : k0 = k
    · simp [dictUpdate, hk, dictFind]
    · simp [dictUpdate, hk, dictFind, ih]

theorem dictFind_update_other : ∀ (d : Dict) (k i : ℕ) (v : SourceStats), i ≠ k →
    dictFind (dictUpdate d k v) i = dictFind d i := by
  intro d k i v hik
  have hki : k ≠ i := fun h => hik h.symm
  induction d with
  | nil => simp [dictUpdate, dictFind, hki]
  | cons hd rest ih =>
    obtain ⟨k0, v0⟩ := hd
    by_cases hk : k0 = k
    · subst hk
      simp [dictUpdate, dictFind, hki]
    · by_cases hi : k0 = i
      · subst hi
        simp [dictUpdate, dictFind, hk]
      · simp [dictUpdate, hk, dictFind, hi, ih]

theorem mem_keys_update : ∀ (d : Dict) (k i : ℕ) (v : SourceStats),
    (i ∈ (dictUpdate d k v).map Prod.fst) ↔ i ∈ d.map Prod.fst ∨ i = k := by
  intro d k i v
  induction d with
  | nil => simp [dictUpdate]
  | cons hd rest ih =>
    obtain ⟨k0, v0⟩ := hd
    by_cases hk : k0 = k
    · subst hk
      simp [dictUpdate]
      tauto
    · simp [dictUpdate, hk, ih]
      tauto

theorem nodup_keys_update : ∀ (d : Dict) (k : ℕ) (v : SourceStats),
    (d.map Prod.fst).Nodup → ((dictUpdate d k v).map Prod.fst).Nodup := by
  intro d k v
  induction d with
  | nil => intro _; simp [dictUpdate]
  | cons hd rest ih =>
    obtain ⟨k0, v0⟩ := hd
    intro hnd
    rw [List.map_cons, List.nodup_cons] at hnd
    by_cases hk : k0 = k
    · subst hk
      simp only [dictUpdate, if_pos]
      rw [List.map_cons, List.nodup_cons]
      exact hnd
    · simp only [dictUpdate, if_neg hk]
      rw [List.map_cons, List.nodup_cons]
      refine ⟨?_, ih hnd.2⟩
      intro hmem
      rcases (mem_keys_update rest k k0 v).mp hmem with h | h
      · exact hnd.1 h
      · exact hk h

theorem lastUnbias_cons_mem (q : ℕ × Bool) (rest : List (ℕ × Bool)) (i : ℕ)
    (h : i ∈ argIds rest) : lastUnbias (q :: rest) i = lastUnbias rest i := by
  simp only [argIds, List.mem_map] at h
  obtain ⟨p, hp, hpi⟩ := h
  have hne : rest.filter (fun p => p.1 == i) ≠ [] := by
    intro hnil
    rw [List.filter_eq_nil_iff] at hnil
    exact hnil p hp (by simp [hpi])
  unfold lastUnbias
  rw [List.filter_cons]
  by_cases hq : q.1 == i
  · obtain ⟨x, t, hxt⟩ := List.exists_cons_of_ne_nil hne
    simp [hq, hxt]
  · simp [hq]

theorem lastUnbias_cons_self (q : ℕ × Bool) (rest : List (ℕ × Bool))
    (h : q.1 ∉ argIds rest) : lastUnbias (q :: rest) q.1 = q.2 := by
  simp only [argIds, List.mem_map, not_exists] at h
  have hnil : rest.filter (fun p => p.1 == q.1) = [] := by
    rw [List.filter_eq_nil_iff]
    intro p hp hpq
    simp at hpq
    exact absurd ⟨hp, hpq⟩ (h p)
  unfold lastUnbias
  rw [List.filter_cons, if_pos (by simp), hnil]
  simp

theorem lastUnbias_of_nodup : ∀ (args : List (ℕ × Bool)) (p : ℕ × Bool),
    (argIds args).Nodup → p ∈ args → lastUnbias args p.1 = p.2 := by
  intro args
  induction args with
  | nil => intro p _ hp; simp at hp
  | cons q rest ih =>
    intro p hnd hp
    have hnd2 : (argIds rest).Nodup := by
      simpa [argIds] using (List.nodup_cons.mp (by simpa [argIds] using hnd)).2
    have hnin : q.1 ∉ argIds rest :=
      (List.nodup_cons.mp (by simpa [argIds] using hnd)).1
    rcases List.mem_cons.mp hp with rfl | hp'
    · exact lastUnbias_cons_self p rest hnin
    · have hmem : p.1 ∈ argIds rest := List.mem_map_of_mem Prod.fst hp'
      rw [lastUnbias_cons_mem q rest p.1 hmem]
      exact ih p hnd2 hp'

theorem cntId_cons (q : ℕ × Bool) (rest : List (ℕ × Bool)) (i : ℕ) :
    cntId (q :: rest) i = cntId rest i + if q.1 = i then 1 else 0 := by
  simp [cntId, argIds, List.count_cons]

theorem initGo_cons (w : World) (d : Dict) (j : ℕ) (u : Bool)
    (rest : List (ℕ × Bool)) (hor : ∀ i k n, w.oracle i k n < 2 ^ n) :
    initGo w d ((j, u) :: rest) =
      initGo (callSource w j initial_test_size).2
        (dictUpdate d j (warmStats u (w.oracle j (w.calls j) initial_test_size)))
        rest := by
  have hpc : popCount (w.oracle j (w.calls j) initial_test_size) ≤ initial_test_size :=
    popCount_le_of_lt_two_pow (hor j (w.calls j) initial_test_size)
  have hok := min_entropy_ok
    ((initial_test_size : ℤ) - (popCount (w.oracle j (w.calls j) initial_test_size) : ℤ))
    ((popCount (w.oracle j (w.calls j) initial_test_size) : ℤ))
    (sub_nonneg.mpr (by exact_mod_cast hpc))
    (Int.natCast_nonneg _)
    (by rw [sub_add_cancel]; norm_num [initial_test_size])
  simp only [initGo, callSource, hok, warmStats]

theorem initGo_world_spec : ∀ (args : List (ℕ × Bool)) (w : World) (d : Dict),
    (∀ i k n, w.oracle i k n < 2 ^ n) →
    (initGo w d args).1 = .ok () ∧
    (initGo w d args).2.1.oracle = w.oracle ∧
    (∀ i, (initGo w d args).2.1.calls i = w.calls i + cntId args i) ∧
    (initGo w d args).2.1.log =
      w.log ++ (args.map fun p => (p.1, initial_test_size)) := by
  intro args
  induction args with
  | nil => intro w d hor; simp [initGo, cntId, argIds]
  | cons q rest ih =>
    intro w d hor
    obtain ⟨j, u⟩ := q
    rw [initGo_cons w d j u rest hor]
    have hor2 : ∀ i k n, (callSource w j initial_test_size).2.oracle i k n < 2 ^ n := hor
    obtain ⟨h1, h2, h3, h4⟩ := ih (callSource w j initial_test_size).2
      (dictUpdate d j (warmStats u (w.oracle j (w.calls j) initial_test_size))) hor2
    refine ⟨h1, h2, ?_, ?_⟩
    · intro i
      rw [h3 i, cntId_cons]
      rcases eq_or_ne j i with rfl | hij
      · simp [callSource] <;> omega
      · have hji : i ≠ j := Ne.symm hij
        simp [callSource, hij, hji] <;> omega
    · rw [h4]
      simp [callSource]

theorem initGo_dict_spec : ∀ (args : List (ℕ × Bool)) (w : World) (d : Dict),
    (∀ i k n, w.oracle i k n < 2 ^ n) →
    (∀ i, i ∉ argIds args → dictFind (initGo w d args).2.2 i = dictFind d i) ∧
    (∀ i, i ∈ argIds args → dictFind (initGo w d args).2.2 i =
      some (warmStats (lastUnbias args i)
        (w.oracle i (w.calls i + cntId args i - 1) initial_test_size))) ∧
    (∀ i, i ∈ (initGo w d args).2.2.map Prod.fst ↔
      i ∈ d.map Prod.fst ∨ i ∈ argIds args) ∧
    ((d.map Prod.fst).Nodup → ((initGo w d args).2.2.map Prod.fst).Nodup) := by
  intro args
  induction args with
  | nil =>
    intro w d hor
    refine ⟨fun i _ => by simp [initGo], fun i hi => by simp [argIds] at hi,
      fun i => by simp [initGo, argIds], fun h => by simpa [initGo] using h⟩
  | cons q rest ih =>
    intro w d hor
    obtain ⟨j, u⟩ := q
    rw [initGo_cons w d j u rest hor]
    have hor2 : ∀ i k n, (callSource w j initial_test_size).2.oracle i k n < 2 ^ n := hor
    obtain ⟨g1, g2, g3, g4⟩ := ih (callSource w j initial_test_size).2
      (dictUpdate d j (warmStats u (w.oracle j (w.calls j) initial_test_size))) hor2
    have hids : argIds ((j, u) :: rest) = j :: argIds rest := by simp [argIds]
    refine ⟨?_, ?_, ?_, ?_⟩
    · intro i hi
      rw [hids] at hi
      simp only [List.mem_cons, not_or] at hi
      rw [g1 i hi.2]
      exact dictFind_update_other d j i _ hi.1
    · intro i hi
      rw [hids] at hi
      by_cases hir : i ∈ argIds rest
      · rw [g2 i hir]
        have hflag : lastUnbias ((j, u) :: rest) i = lastUnbias rest i :=
          lastUnbias_cons_mem (j, u) rest i hir
        have hidx : (callSource w j initial_test_size).2.calls i + cntId rest i - 1 =
            w.calls i + cntId ((j, u) :: rest) i - 1 := by
          rw [cntId_cons]
          rcases eq_or_ne j i with rfl | hij
          · simp [callSource] <;> omega
          · have hji : i ≠ j := Ne.symm hij
            simp [callSource, hij, hji] <;> omega
        rw [hflag, hidx]
        simp [callSource]
      · have hij : i = j := by
          rcases List.mem_cons.mp hi with h | h
          · exact h
          · exact absurd h hir
        subst hij
        rw [g1 i hir, dictFind_update_self]
        have hflag : lastUnbias ((i, u) :: rest) i = u :=
          lastUnbias_cons_self (i, u) rest (by simpa using hir)
        have hcnt : cntId ((i, u) :: rest) i = 1 := by
          rw [cntId_cons]
          simp [cntId, List.count_eq_zero_of_not_mem hir]
        rw [hflag, hcnt]
        simp
    · intro i
      rw [hids, (g3 i), mem_keys_update d j i]
      simp [List.mem_cons]
      tauto
    · intro hnd
      exact g4 (nodup_keys_update d j _ hnd)

theorem nodup_all_eq_singleton : ∀ (l : List ℕ) (id : ℕ), l.Nodup →
    (∀ x ∈ l, x = id) → id ∈ l → l = [id] := by
  intro l id hnd hall hmem
  cases l with
  | nil => simp at hmem
  | cons x t =>
    have hx : x = id := hall x (List.mem_cons_self x t)
    cases t with
    | nil => rw [hx]
    | cons y s =>
      exfalso
      have hy : y = id := hall y (by simp)
      rw [List.nodup_cons] at hnd
      exact hnd.1 (by rw [hx, ← hy]; exact List.mem_cons_self y s)

theorem keys_singleton_cases : ∀ (d : Dict) (id : ℕ),
    d.map Prod.fst = [id] → ∃ st, d = [(id, st)] := by
  intro d id h
  cases d with
  | nil => simp at h
  | cons e rest =>
    obtain ⟨k, v⟩ := e
    simp at h
    exact ⟨v, by rw [h.1, h.2]⟩

theorem drawOnce_singleton (shake : List ℕ → ℕ → List ℕ) (w : World)
    (id : ℕ) (st : SourceStats) (bs : ℕ) :
    drawOnce shake w [(id, st)] bs =
      ((processSource shake w id st bs).1,
       [(id, (processSource shake w id st bs).2.1)],
       (processSource shake w id st bs).2.2) := by
  unfold drawOnce drawGo
  rcases hp : processSource shake w id st bs with ⟨r, st', w'⟩
  cases r <;> simp [drawGo, hp]

/-! ## Claim C9 -/

/-- C9 (counterexample to the claim as stated): passing the same callable
twice to the constructor leaves exactly one registered source in the dict,
yet that source's callable is invoked twice (once per argument occurrence)
with bit_size 8192 during construction — not exactly once. -/
theorem init_duplicate_callable_called_twice :
    ((pure_nrng_init wZero [(5, true), (5, true)]).2.1.log.countP
      fun e => e.1 == 5) = 2 ∧
    (pure_nrng_init wZero [(5, true), (5, true)]).2.2.length = 1 := by
  have hor : ∀ i k n, wZero.oracle i k n < 2 ^ n :=
    fun i k n => by simpa [wZero, oracleZero] using pow_pos (by norm_num : (0 : ℕ) < 2) n
  have hw := initGo_world_spec [(5, true), (5, true)] wZero [] hor
  have hd := initGo_dict_spec [(5, true), (5, true)] wZero [] hor
  have hinit : pure_nrng_init wZero [(5, true), (5, true)] =
      initGo wZero [] [(5, true), (5, true)] := by
    simp [pure_nrng_init]
  constructor
  · rw [hinit, hw.2.2.2]
    decide
  · have hkeys : (initGo wZero [] [(5, true), (5, true)]).2.2.map Prod.fst = [5] := by
      apply nodup_all_eq_singleton _ _ (hd.2.2.2 (by simp))
      · intro x hx
        rcases (hd.2.2.1 x).mp hx with h | h
        · simp at h
        · simpa [argIds] using h
      · exact (hd.2.2.1 5).mpr (Or.inr (by simp [argIds]))
    rw [hinit]
    have hlen := congrArg List.length hkeys
    simpa using hlen

/-- C9 (amended to argument lists whose callables are pairwise distinct):
the constructor calls every registered source's callable exactly once, with
bit_size `initial_test_size = 8192`, including sources configured with
`unbias = False`, and stores for every source — regardless of its unbias
flag — the statistics entry built from that single warm-up sample:
one-sample count windows, running sums, and the sample's min-entropy
estimate.  (With a duplicated callable the code instead calls it once per
occurrence, as the counterexample shows.) -/
theorem init_distinct_sources_warmup (w : World) (args : List (ℕ × Bool))
    (hor : ∀ i k n, w.oracle i k n < 2 ^ n) (hne : args ≠ [])
    (hnd : (argIds args).Nodup) : InitWarmupSpec w args := by
  have hinit : pure_nrng_init w args = initGo w [] args := by
    simp [pure_nrng_init, hne]
  obtain ⟨h1, _, _, h4⟩ := initGo_world_spec args w [] hor
  obtain ⟨_, d2, _, _⟩ := initGo_dict_spec args w [] hor
  refine ⟨by rw [hinit]; exact h1, by rw [hinit]; exact h4, ?_⟩
  intro p hp
  have hmem : p.1 ∈ argIds args := List.mem_map_of_mem Prod.fst hp
  have hcnt : (argIds args).count p.1 = 1 := List.count_eq_one_of_mem hnd hmem
  constructor
  · have e1 : ((args.map fun q => (q.1, initial_test_size)).countP
        fun e => e.1 == p.1) = (argIds args).count p.1 := by
      rw [List.countP_map, argIds, List.count_eq_countP, List.countP_map]
      rfl
    rw [e1, hcnt]
  · rw [hinit, d2 p.1 hmem]
    have hflag := lastUnbias_of_nodup args p hnd hp
    have hcnt2 : cntId args p.1 = 1 := hcnt
    rw [hflag, hcnt2]
    simp

theorem init_distinct_sources_warmup_witness :
    ([(3, true), (7, false)] : List (ℕ × Bool)) ≠ [] ∧
    (argIds [(3, true), (7, false)]).Nodup ∧
    InitWarmupSpec wZero [(3, true), (7, false)] :=
  ⟨by simp, by decide,
   init_distinct_sources_warmup wZero [(3, true), (7, false)]
     (fun i k n => by
       simpa [wZero, oracleZero] using pow_pos (by norm_num : (0 : ℕ) < 2) n)
     (by simp) (by decide)⟩

/-! ## Claim C10 -/

/-- C10: registered sources are keyed by callable identity: when the same
callable occurs more than once among the constructor arguments (in any mix
of bare and `(callable, unbias)` forms — a bare form is normalised to
`unbias = True` before this point), the dict keeps exactly one entry for it,
carrying the configuration and warm-up statistics of the last occurrence,
and a draw over the resulting singleton dict XORs that source's contribution
into the output exactly once (the yield is that single contribution). -/
theorem dict_identity_last_config_wins (shake : List ℕ → ℕ → List ℕ)
    (w : World) (args : List (ℕ × Bool)) (id : ℕ)
    (hor : ∀ i k n, w.oracle i k n < 2 ^ n) (hmem : id ∈ argIds args) :
    DictIdentitySpec shake w args id := by
  have hne : args ≠ [] := by
    intro h
    rw [h] at hmem
    simp [argIds] at hmem
  have hinit : pure_nrng_init w args = initGo w [] args := by
    simp [pure_nrng_init, hne]
  obtain ⟨h1, _, _, _⟩ := initGo_world_spec args w [] hor
  obtain ⟨d1, d2, d3, d4⟩ := initGo_dict_spec args w [] hor
  have hkeynd : ((initGo w [] args).2.2.map Prod.fst).Nodup := d4 (by simp)
  refine ⟨by rw [hinit]; exact h1, ?_, ?_, ?_, ?_⟩
  · rw [hinit]
    exact List.count_eq_one_of_mem hkeynd ((d3 id).mpr (Or.inr hmem))
  · rw [hinit]
    exact d2 id hmem
  · intro hall
    rw [hinit]
    refine keys_singleton_cases _ id ?_
    apply nodup_all_eq_singleton _ _ hkeynd
    · intro x hx
      rcases (d3 x).mp hx with h | h
      · simp at h
      · simp only [argIds, List.mem_map] at h
        obtain ⟨p, hp, hpx⟩ := h
        rw [← hpx]
        exact hall p hp
    · exact (d3 id).mpr (Or.inr hmem)
  · intro st w2 bs
    exact drawOnce_singleton shake w2 id st bs

theorem dict_identity_last_config_wins_witness :
    7 ∈ argIds [(7, false), (7, true)] ∧
    DictIdentitySpec shakeZero wZero [(7, false), (7, true)] 7 :=
  ⟨by decide,
   dict_identity_last_config_wins shakeZero wZero [(7, false), (7, true)] 7
     (fun i k n => by
       simpa [wZero, oracleZero] using pow_pos (by norm_num : (0 : ℕ) < 2) n)
     (by decide)⟩

/-! ## Helper lemmas for the retry policy (claim C3) -/

theorem pushCounts_q0 (st : SourceStats) (n0 n1 : ℤ) :
    (pushCounts st n0 n1).count_queue_of_0 =
      (if st.count_queue_of_0.length = count_queue_maxlen
       then st.count_queue_of_0.tail else st.count_queue_of_0) ++ [n0] := by
  unfold pushCounts
  by_cases hc : st.count_queue_of_0.length = count_queue_maxlen <;> simp [hc]

theorem pushCounts_q1 (st : SourceStats) (n0 n1 : ℤ) :
    (pushCounts st n0 n1).count_queue_of_1 =
      (if st.count_queue_of_1.length = count_queue_maxlen
       then st.count_queue_of_1.tail else st.count_queue_of_1) ++ [n1] := by
  unfold pushCounts
  by_cases hc : st.count_queue_of_1.length = count_queue_maxlen <;> simp [hc]

theorem mem_ite_tail_append {q : List ℤ} {n x : ℤ} {c : Prop} [Decidable c]
    (hx : x ∈ (if c then q.tail else q) ++ [n]) : x ∈ q ∨ x = n := by
  rcases List.mem_append.mp hx with h | h
  · by_cases hc : c
    · rw [if_pos hc] at h
      exact Or.inl (List.mem_of_mem_tail h)
    · rw [if_neg hc] at h
      exact Or.inl h
  · simp at h
    exact Or.inr h

theorem sum_ite_tail_nonneg {q : List ℤ} {c : Prop} [Decidable c]
    (hq : ∀ x ∈ q, 0 ≤ x) : 0 ≤ (if c then q.tail else q).sum := by
  apply List.sum_nonneg
  intro x hx
  by_cases hc : c
  · rw [if_pos hc] at hx
    exact hq x (List.mem_of_mem_tail hx)
  · rw [if_neg hc] at hx
    exact hq x hx

theorem attemptOnce_facts (id : ℕ) (w : World) (st : SourceStats) (len : ℕ)
    (hor : ∀ i k n, w.oracle i k n < 2 ^ n) (hlen : 0 < len)
    (hInv : StatsInv st)
    (hq0 : ∀ x ∈ st.count_queue_of_0, 0 ≤ x)
    (hq1 : ∀ x ∈ st.count_queue_of_1, 0 ≤ x) :
    StatsInv (attemptOnce id w st len).2.1 ∧
    (∀ x ∈ (attemptOnce id w st len).2.1.count_queue_of_0, 0 ≤ x) ∧
    (∀ x ∈ (attemptOnce id w st len).2.1.count_queue_of_1, 0 ≤ x) ∧
    min_entropy (attemptOnce id w st len).2.1.sum_of_0
        (attemptOnce id w st len).2.1.sum_of_1 =
      .ok (minEntropyVal (attemptOnce id w st len).2.1.sum_of_0
        (attemptOnce id w st len).2.1.sum_of_1) ∧
    (attemptOnce id w st len).2.2.log = w.log ++ [(id, len)] ∧
    (attemptOnce id w st len).2.2.oracle = w.oracle := by
  have hpc := popCount_le_of_lt_two_pow (hor id (w.calls id) len)
  set n1 : ℤ := (popCount (w.oracle id (w.calls id) len) : ℤ) with hn1
  set n0 : ℤ := (len : ℤ) - n1 with hn0
  have h1 : 0 ≤ n1 := Int.natCast_nonneg _
  have h0 : 0 ≤ n0 := by
    rw [hn0, hn1]
    omega
  have hInv' := statsInv_pushCounts st n0 n1 hInv
  have hq0' : ∀ x ∈ (pushCounts st n0 n1).count_queue_of_0, 0 ≤ x := by
    intro x hx
    rw [pushCounts_q0] at hx
    rcases mem_ite_tail_append hx with h | h
    · exact hq0 x h
    · rw [h]; exact h0
  have hq1' : ∀ x ∈ (pushCounts st n0 n1).count_queue_of_1, 0 ≤ x := by
    intro x hx
    rw [pushCounts_q1] at hx
    rcases mem_ite_tail_append hx with h | h
    · exact hq1 x h
    · rw [h]; exact h1
  have g0 : n0 ≤ (pushCounts st n0 n1).sum_of_0 := by
    rw [hInv'.2.2.1, pushCounts_q0, List.sum_append]
    have := sum_ite_tail_nonneg
      (c := st.count_queue_of_0.length = count_queue_maxlen) hq0
    simp only [List.sum_cons, List.sum_nil, add_zero]
    omega
  have g1 : n1 ≤ (pushCounts st n0 n1).sum_of_1 := by
    rw [hInv'.2.2.2, pushCounts_q1, List.sum_append]
    have := sum_ite_tail_nonneg
      (c := st.count_queue_of_1.length = count_queue_maxlen) hq1
    simp only [List.sum_cons, List.sum_nil, add_zero]
    omega
  have hs0 : 0 ≤ (pushCounts st n0 n1).sum_of_0 := by
    rw [hInv'.2.2.1]
    exact List.sum_nonneg hq0'
  have hs1 : 0 ≤ (pushCounts st n0 n1).sum_of_1 := by
    rw [hInv'.2.2.2]
    exact List.sum_nonneg hq1'
  have htot : 0 < (pushCounts st n0 n1).sum_of_0 + (pushCounts st n0 n1).sum_of_1 := by
    have hsum : n0 + n1 = (len : ℤ) := by rw [hn0]; ring
    omega
  exact ⟨hInv', hq0', hq1', min_entropy_ok _ _ hs0 hs1 htot, rfl, rfl⟩

theorem randomness_extractor_is_ok (shake : List ℕ → ℕ → List ℕ) (raw bs : ℕ)
    (hbs : 0 < bs) :
    randomness_extractor shake (raw : ℤ) (bs : ℤ) =
      .ok (((fromBytesLE (shake (toBytesLE raw ((bitLength raw + 7) / 8))
        ((bs + 7) / 8))) : ℤ) % 2 ^ bs) := by
  have hbz : (0 : ℤ) < (bs : ℤ) := by exact_mod_cast hbs
  simp [randomness_extractor, bit_length_mask, (Int.natCast_nonneg raw).not_lt,
    hbz.not_le, (Int.natCast_nonneg (fromBytesLE _)).not_lt]

theorem attemptLoop_succ (id fuel : ℕ) (w : World) (st : SourceStats) (len : ℕ) :
    attemptLoop id (fuel + 1) w st len =
      (match min_entropy (attemptOnce id w st len).2.1.sum_of_0
          (attemptOnce id w st len).2.1.sum_of_1 with
       | .error e => (.error e, (attemptOnce id w st len).2.1, (attemptOnce id w st len).2.2)
       | .ok m =>
         if m ≠ 0 then
           (.ok (attemptOnce id w st len).1,
            { (attemptOnce id w st len).2.1 with min_entropy_value := m },
            (attemptOnce id w st len).2.2)
         else attemptLoop id fuel (attemptOnce id w st len).2.2
           (attemptOnce id w st len).2.1 initial_test_size) := rfl

theorem attemptLoop_zero (id : ℕ) (w : World) (st : SourceStats) (len : ℕ) :
    attemptLoop id 0 w st len = (.error (.runtimeError id), st, w) := rfl

theorem processSource_unbias (shake : List ℕ → ℕ → List ℕ) (w : World)
    (id : ℕ) (st : SourceStats) (bs : ℕ) (hu : st.unbias = true) :
    processSource shake w id st bs =
      (match attemptLoop id 3 w st
          (if st.min_entropy_value ≠ 0 then readLenFor bs st.min_entropy_value
           else initial_test_size) with
       | (.error e, st', w') => (.error e, st', w')
       | (.ok raw, st', w') =>
         match randomness_extractor shake (raw : ℤ) (bs : ℤ) with
         | .error e => (.error e, st', w')
         | .ok v => (.ok v.toNat, st', w')) := by
  simp only [processSource, hu, if_true]

/-! ## Claim C3 -/

/-- C3: within one draw of `true_rand_bits`, for a source configured with
`unbias = True` and respecting the raw-bits contract: at most 3 sampling
attempts are made; an attempt whose recomputed min-entropy estimate is
non-zero is accepted and stops the retrying; after an attempt with a zero
estimate the next attempt reads `initial_test_size = 8192` raw bits; if all
3 attempts yield a zero estimate the draw fails with RuntimeError (the
spec's EntropySourceExhausted) identifying the source; and a zero estimate
in attempts 1-2 followed by a non-zero one is invisible to the caller on
success. -/
theorem true_rand_bits_retry_policy (shake : List ℕ → ℕ → List ℕ) (w : World)
    (id : ℕ) (st : SourceStats) (bs : ℕ) (hu : st.unbias = true) (hbs : 0 < bs)
    (hor : ∀ i k n, w.oracle i k n < 2 ^ n) (hwf : WFStats st) :
    RetryPolicySpec shake w id st bs := by
  obtain ⟨hInv, hq0, hq1, hmev⟩ := hwf
  simp only [RetryPolicySpec]
  set len1 := (if st.min_entropy_value ≠ 0 then readLenFor bs st.min_entropy_value
    else initial_test_size) with hlen1def
  have hlen1 : 0 < len1 := by
    rw [hlen1def]
    by_cases hz : st.min_entropy_value ≠ 0
    · rw [if_pos hz]
      have hpos : 0 < st.min_entropy_value := lt_of_le_of_ne hmev (Ne.symm hz)
      have hdiv : (0 : ℝ) < ((bs * 2 : ℕ) : ℝ) / st.min_entropy_value := by
        apply div_pos _ hpos
        have : 0 < bs * 2 := by omega
        exact_mod_cast this
      have hc := Int.ceil_pos.mpr hdiv
      unfold readLenFor
      omega
    · rw [if_neg hz]
      norm_num [initial_test_size]
  set a1 := attemptOnce id w st len1 with ha1
  obtain ⟨hInv1, hq01, hq11, hok1, hlog1, horc1⟩ :=
    attemptOnce_facts id w st len1 hor hlen1 hInv hq0 hq1
  have hor1 : ∀ i k n, a1.2.2.oracle i k n < 2 ^ n := by
    intro i k n
    rw [horc1]
    exact hor i k n
  set a2 := attemptOnce id a1.2.2 a1.2.1 initial_test_size with ha2
  obtain ⟨hInv2, hq02, hq12, hok2, hlog2, horc2⟩ :=
    attemptOnce_facts id a1.2.2 a1.2.1 initial_test_size hor1
      (by norm_num [initial_test_size]) hInv1 hq01 hq11
  have hor2 : ∀ i k n, a2.2.2.oracle i k n < 2 ^ n := by
    intro i k n
    rw [horc2, horc1]
    exact hor i k n
  set a3 := attemptOnce id a2.2.2 a2.2.1 initial_test_size with ha3
  obtain ⟨hInv3, hq03, hq13, hok3, hlog3, horc3⟩ :=
    attemptOnce_facts id a2.2.2 a2.2.1 initial_test_size hor2
      (by norm_num [initial_test_size]) hInv2 hq02 hq12
  set e1 := minEntropyVal a1.2.1.sum_of_0 a1.2.1.sum_of_1 with he1def
  set e2 := minEntropyVal a2.2.1.sum_of_0 a2.2.1.sum_of_1 with he2def
  set e3 := minEntropyVal a3.2.1.sum_of_0 a3.2.1.sum_of_1 with he3def
  have hps := processSource_unbias shake w id st bs hu
  rw [← hlen1def] at hps
  have hun3 : attemptLoop id 3 w st len1 = _ := attemptLoop_succ id 2 w st len1
  rw [← ha1] at hun3
  simp only [hok1] at hun3
  have hun2 : attemptLoop id 2 a1.2.2 a1.2.1 initial_test_size = _ :=
    attemptLoop_succ id 1 a1.2.2 a1.2.1 initial_test_size
  rw [← ha2] at hun2
  simp only [hok2] at hun2
  have hun1 : attemptLoop id 1 a2.2.2 a2.2.1 initial_test_size = _ :=
    attemptLoop_succ id 0 a2.2.2 a2.2.1 initial_test_size
  rw [← ha3] at hun1
  simp only [hok3] at hun1
  have hun0 := attemptLoop_zero id a3.2.2 a3.2.1 initial_test_size
  refine ⟨?_, ?_, ?_, ?_⟩
  · intro he1
    rw [if_pos he1] at hun3
    simp only [hun3, randomness_extractor_is_ok shake a1.1 bs hbs] at hps
    exact ⟨⟨_, by rw [hps]⟩, by rw [hps]; exact hlog1⟩
  · intro he1 he2
    rw [if_neg (not_not.mpr he1)] at hun3
    rw [if_pos he2] at hun2
    simp only [hun3, hun2, randomness_extractor_is_ok shake a2.1 bs hbs] at hps
    refine ⟨⟨_, by rw [hps]⟩, ?_⟩
    rw [hps]
    show a2.2.2.log = _
    rw [hlog2, hlog1]
    simp
  · intro he1 he2 he3
    rw [if_neg (not_not.mpr he1)] at hun3
    rw [if_neg (not_not.mpr he2)] at hun2
    rw [if_pos he3] at hun1
    simp only [hun3, hun2, hun1, randomness_extractor_is_ok shake a3.1 bs hbs] at hps
    refine ⟨⟨_, by rw [hps]⟩, ?_⟩
    rw [hps]
    show a3.2.2.log = _
    rw [hlog3, hlog2, hlog1]
    simp
  · intro he1 he2 he3
    rw [if_neg (not_not.mpr he1)] at hun3
    rw [if_neg (not_not.mpr he2)] at hun2
    rw [if_neg (not_not.mpr he3)] at hun1
    simp only [hun3, hun2, hun1, hun0] at hps
    refine ⟨by rw [hps], ?_⟩
    rw [hps]
    show a3.2.2.log = _
    rw [hlog3, hlog2, hlog1]
    simp

theorem true_rand_bits_retry_policy_witness :
    stAllZero.unbias = true ∧ (0 : ℕ) < 4 ∧ WFStats stAllZero ∧
    RetryPolicySpec shakeZero wZero 0 stAllZero 4 := by
  have hmz : minEntropyVal (initial_test_size : ℤ) 0 = 0 :=
    minEntropyVal_right_zero _ (by norm_num [initial_test_size])
  have hwf : WFStats stAllZero := by
    refine ⟨⟨rfl, by norm_num [stAllZero, count_queue_maxlen], by simp [stAllZero],
      by simp [stAllZero]⟩, ?_, ?_, ?_⟩
    · intro x hx
      simp only [stAllZero, List.mem_singleton] at hx
      rw [hx]
      norm_num [initial_test_size]
    · intro x hx
      simp only [stAllZero, List.mem_singleton] at hx
      rw [hx]
    · rw [show stAllZero.min_entropy_value =
        minEntropyVal (initial_test_size : ℤ) 0 from rfl, hmz]
  exact ⟨rfl, by norm_num, hwf,
    true_rand_bits_retry_policy shakeZero wZero 0 stAllZero 4 rfl (by norm_num)
      (fun i k n => by
        simpa [wZero, oracleZero] using pow_pos (by norm_num : (0 : ℕ) < 2) n)
      hwf⟩

end PureNrng
